import Mathlib

/-!
Shallow embedding of the schedule-planning core of the irrigation scheduler
(`src/constraints.py` and the older variant `src/sprinker.py`).

The embedding covers:
* the data model (`Line`, the planning configuration values `daily_slots`
  and `slot_minutes`);
* the cycle calculation (`intervalsOf`, `maxInterval`, `numDays`,
  `lineTargets`, mirroring `constraints.py` lines 18-28);
* the hard-constraint model builder: each emitted CP-SAT constraint over the
  boolean (line, day, slot) grid is represented syntactically by a `Cstr`
  value, and the builder functions (`capCons`, `groupCons`, `targetCons`,
  `intervalCons`) mirror the emission loops of `constraints.py` lines 40-101
  / `sprinker.py` lines 163-207.  The soft-objective section only introduces
  auxiliary integer variables that are functionally determined by the boolean
  grid, so it does not restrict which boolean assignments are feasible and is
  not part of the hard model;
* evaluation of an assignment of the boolean grid against the emitted
  constraints (`evalC`, `satAll`): an assignment is a function
  `Nat → Nat → Nat → Bool` of (line index, day, slot);
* the solution decoder (`slotPlan`, `daysPlan`, `lpAdd`/`buildLP` for the
  insertion-ordered dict `line_plan`, `solveResult` for the status dispatch
  of `constraints.py` lines 154-170).

Python list indexing `lines[l]` is embedded as `getL` (a `getD` with a dummy
default; every use keeps `l` inside `range(len(lines))`, matching the code).
The Python `while True` loop emitting the "in between" implications
(`constraints.py` lines 92-101) steps through cells in (day, slot)
enumeration order, i.e. through consecutive cell indices `d * num_slots + s`;
`betweenIdxs` lists exactly those indices.  (For a non-positive interval the
Python loop does not terminate, and for a zero interval the target
computation divides by zero, so the model only ever gets built for positive
intervals; theorems about the built model carry that hypothesis.)  A zone
whose `group` is neither `"A"` nor `"B"` makes `constraints.py` raise a
`KeyError` before the model is finished, so the built model only exists for
two-group inputs; `groupTerms` collects the `"A"`/`"B"` rows exactly as the
`group_tasks` dict does.
-/

/-- A zone ("line"): `src/sprinker.py` line 14 plus the `group` attribute that
`src/constraints.py` line 60 reads from each line record. -/
structure Line where
  name : String
  interval : Nat
  duration : Nat
  group : String
  splash : List String
deriving DecidableEq

/-- Python `lines[l]` (all call sites keep `l < len(lines)`). -/
def getL (lines : List Line) (l : Nat) : Line :=
  lines.getD l ⟨"", 0, 0, "", []⟩

/-- One linear term `coeff * slots[(line, day, slot)]` of an emitted
constraint. -/
structure LinTerm where
  coeff : Nat
  line : Nat
  day : Nat
  slot : Nat
deriving DecidableEq

/-- One hard constraint emitted into the CP-SAT model: a bounded linear sum
(`model.Add(sum(...) <= b)`, `... > b`, `... == t`) or an implication between
two grid booleans (`model.AddImplication`, with `pos = false` for an implied
`.Not()`). -/
inductive Cstr where
  | le (terms : List LinTerm) (bound : Nat)
  | gt (terms : List LinTerm) (bound : Nat)
  | eq (terms : List LinTerm) (target : Nat)
  | imp (line day slot tday tslot : Nat) (pos : Bool)
deriving DecidableEq

/-- The deduplicated interval list: the loop of `constraints.py` lines 18-21
(`if l.interval not in intervals: intervals.append(l.interval)`). -/
def intervalsOf (lines : List Line) : List Nat :=
  lines.foldl (fun acc z => if z.interval ∈ acc then acc else acc ++ [z.interval]) []

/-- `max_interval = lcm(*intervals)` (`constraints.py` line 22); Python's
`math.lcm` of no arguments is 1 and it folds `lcm` over its arguments. -/
def maxInterval (lines : List Line) : Nat :=
  (intervalsOf lines).foldl Nat.lcm 1

/-- `num_days = max_interval * num_slots` (`constraints.py` line 28). -/
def numDays (lines : List Line) (nS : Nat) : Nat :=
  maxInterval lines * nS

/-- `line_targets` (`constraints.py` lines 23-26): per line,
`(max_interval // l.interval) * num_slots`. -/
def lineTargets (lines : List Line) (nS : Nat) : List Nat :=
  lines.map (fun z => (maxInterval lines / z.interval) * nS)

/-- The per-cell capacity terms `lines[l].duration * slots[(l, d, s)]`
(`constraints.py` lines 45-47). -/
def capTerms (lines : List Line) (d s : Nat) : List LinTerm :=
  (List.range lines.length).map (fun l => ⟨(getL lines l).duration, l, d, s⟩)

/-- Slot-capacity constraints (`constraints.py` lines 42-48): one
`sum <= slot_minutes` per (day, slot). -/
def capCons (lines : List Line) (nD nS sm : Nat) : List Cstr :=
  (List.range nD).flatMap (fun d =>
    (List.range nS).map (fun s => Cstr.le (capTerms lines d s) sm))

/-- The per-cell terms of one fairness group: the rows the loop of
`constraints.py` lines 59-60 appends to `group_tasks[g]`, in line order. -/
def groupTerms (lines : List Line) (g : String) (d s : Nat) : List LinTerm :=
  ((List.range lines.length).filter (fun l => (getL lines l).group == g)).map
    (fun l => ⟨(getL lines l).duration, l, d, s⟩)

/-- Group-balance constraints (`constraints.py` lines 50-65): per (day, slot),
`sum(A) > 0`, `sum(A) <= slot_minutes // 2`, `sum(B) > 0`,
`sum(B) <= slot_minutes // 2`, in emission order. -/
def groupCons (lines : List Line) (nD nS sm : Nat) : List Cstr :=
  (List.range nD).flatMap (fun d =>
    (List.range nS).flatMap (fun s =>
      [Cstr.gt (groupTerms lines "A" d s) 0,
       Cstr.le (groupTerms lines "A" d s) (sm / 2),
       Cstr.gt (groupTerms lines "B" d s) 0,
       Cstr.le (groupTerms lines "B" d s) (sm / 2)]))

/-- The full-horizon occurrence terms of one line (`constraints.py` lines
68-72: every `slots[(l, d, s)]`, coefficient 1, in (day, slot) order). -/
def targetTerms (l nD nS : Nat) : List LinTerm :=
  (List.range nD).flatMap (fun d =>
    (List.range nS).map (fun s => ⟨1, l, d, s⟩))

/-- Frequency-target constraints (`constraints.py` lines 67-73): per line,
`sum(line_slots) == line_targets[l]`. -/
def targetCons (lines : List Line) (nD nS : Nat) : List Cstr :=
  (List.range lines.length).map (fun l =>
    Cstr.eq (targetTerms l nD nS) ((maxInterval lines / (getL lines l).interval) * nS))

/-- The cell indices strictly between cell `i0` and cell `i1` in (day, slot)
enumeration order: the cells visited by the `while True` loop of
`constraints.py` lines 92-101 before it reaches `(next_d, next_s)`. -/
def betweenIdxs (i0 i1 : Nat) : List Nat :=
  (List.range (i1 - (i0 + 1))).map (fun k => i0 + 1 + k)

/-- The implications emitted for one (line, day, slot) by `constraints.py`
lines 84-101: the positive implication to `(d + interval, (s+1) % num_slots)`
and a negative implication to every cell strictly in between, each filtered
by `add_checked_implication`'s bound check (`nd >= num_days or ns >=
num_slots` is skipped). -/
def impsFor (lines : List Line) (nD nS l d s : Nat) : List Cstr :=
  let nd := d + (getL lines l).interval
  let ns := (s + 1) % nS
  (if nd < nD ∧ ns < nS then [Cstr.imp l d s nd ns true] else [])
    ++ (betweenIdxs (d * nS + s) (nd * nS + ns)).filterMap (fun i =>
        if i / nS < nD ∧ i % nS < nS then
          some (Cstr.imp l d s (i / nS) (i % nS) false)
        else none)

/-- Interval-spacing constraints (`constraints.py` lines 84-101), in the
code's `for d: for s: for l:` emission order. -/
def intervalCons (lines : List Line) (nD nS : Nat) : List Cstr :=
  (List.range nD).flatMap (fun d =>
    (List.range nS).flatMap (fun s =>
      (List.range lines.length).flatMap (fun l => impsFor lines nD nS l d s)))

/-- Every hard constraint `plan_schedule` of `src/constraints.py` emits
(lines 40-101), in emission order: capacity, group balance, targets,
interval spacing. -/
def hardConstraints (lines : List Line) (nS sm : Nat) : List Cstr :=
  capCons lines (numDays lines nS) nS sm
    ++ groupCons lines (numDays lines nS) nS sm
    ++ targetCons lines (numDays lines nS) nS
    ++ intervalCons lines (numDays lines nS) nS

/-- Every hard constraint `plan_schedule` of `src/sprinker.py` emits (lines
163-207): capacity, targets, interval spacing — no group balance. -/
def hardSprinker (lines : List Line) (nS sm : Nat) : List Cstr :=
  capCons lines (numDays lines nS) nS sm
    ++ targetCons lines (numDays lines nS) nS
    ++ intervalCons lines (numDays lines nS) nS

/-- Value of one linear term under a boolean grid assignment. -/
def evalTerm (x : Nat → Nat → Nat → Bool) (t : LinTerm) : Nat :=
  t.coeff * (if x t.line t.day t.slot then 1 else 0)

/-- Value of a linear sum under an assignment. -/
def evalSum (x : Nat → Nat → Nat → Bool) (ts : List LinTerm) : Nat :=
  (ts.map (evalTerm x)).sum

/-- Whether an assignment satisfies one emitted constraint. -/
def evalC (x : Nat → Nat → Nat → Bool) : Cstr → Bool
  | Cstr.le ts b => decide (evalSum x ts ≤ b)
  | Cstr.gt ts b => decide (b < evalSum x ts)
  | Cstr.eq ts t => evalSum x ts == t
  | Cstr.imp l d s td ts' pos =>
      !(x l d s) || (if pos then x l td ts' else !(x l td ts'))

/-- Whether an assignment satisfies every constraint of a list. -/
def satAll (x : Nat → Nat → Nat → Bool) (cs : List Cstr) : Bool :=
  cs.all (evalC x)

/-- The decoder's per-cell zone list (`constraints.py` lines 160-165:
`for l in all_lines: if solver.Value(...): slot_plan.append(lines[l])`). -/
def slotPlan (lines : List Line) (x : Nat → Nat → Nat → Bool) (d s : Nat) : List Line :=
  (List.range lines.length).filterMap (fun l =>
    if x l d s then some (getL lines l) else none)

/-- The decoder's day-major view `days_plan` (`constraints.py` lines
156-167): day → slot → list of zones watered there. -/
def daysPlan (lines : List Line) (x : Nat → Nat → Nat → Bool) (nD nS : Nat) :
    List (List (List Line)) :=
  (List.range nD).map (fun d => (List.range nS).map (fun s => slotPlan lines x d s))

/-- `line_plan.setdefault(lines[l], []).append((d, s))` on an
insertion-ordered association list (the Python dict keyed by the line
record). -/
def lpAdd (lp : List (Line × List (Nat × Nat))) (z : Line) (v : Nat × Nat) :
    List (Line × List (Nat × Nat)) :=
  match lp with
  | [] => [(z, [v])]
  | (k, vs) :: rest =>
      if k = z then (k, vs ++ [v]) :: rest else (k, vs) :: lpAdd rest z v

/-- Reading a key's occurrence list out of the zone-major view (a missing
key reads as the empty list). -/
def lpGet (lp : List (Line × List (Nat × Nat))) (z : Line) : List (Nat × Nat) :=
  match lp with
  | [] => []
  | (k, vs) :: rest => if k = z then vs else lpGet rest z

/-- The decoder's zone-major view `line_plan` (`constraints.py` lines
157-165): the same `for d: for s: for l:` sweep, appending `(d, s)` to the
watered line's entry. -/
def buildLP (lines : List Line) (x : Nat → Nat → Nat → Bool) (nD nS : Nat) :
    List (Line × List (Nat × Nat)) :=
  (List.range nD).foldl (fun acc d =>
    (List.range nS).foldl (fun acc s =>
      (List.range lines.length).foldl (fun acc l =>
        if x l d s then lpAdd acc (getL lines l) (d, s) else acc) acc) acc) []

/-- The CP-SAT solve statuses `plan_schedule` can observe. -/
inductive CpStatus where
  | unknown
  | modelInvalid
  | feasible
  | infeasible
  | optimal
deriving DecidableEq

/-- The status dispatch of `constraints.py` lines 154-170: on OPTIMAL or
FEASIBLE decode both views, otherwise `solution = None`. -/
def solveResult (status : CpStatus) (lines : List Line)
    (x : Nat → Nat → Nat → Bool) (nD nS : Nat) :
    Option (List (List (List Line)) × List (Line × List (Nat × Nat))) :=
  if status = CpStatus.optimal ∨ status = CpStatus.feasible then
    some (daysPlan lines x nD nS, buildLP lines x nD nS)
  else none

/-- The ordered (day, slot) occurrence list of line `l` under assignment `x`:
the cells the decoder sweep appends for that line, in sweep order. -/
def zoneOccs (x : Nat → Nat → Nat → Bool) (l nD nS : Nat) : List (Nat × Nat) :=
  (List.range nD).flatMap (fun d =>
    (List.range nS).flatMap (fun s => if x l d s then [(d, s)] else []))

/-- The occurrence list of line `l` in cell-index form. -/
def occIdx (x : Nat → Nat → Nat → Bool) (l nD nS : Nat) : List Nat :=
  (List.range (nD * nS)).filter (fun i => x l (i / nS) (i % nS))

/-- An assignment given as a function of the zone record itself (rather than
of its position in the declaration list), reindexed for a declaration list. -/
def xOf (lines : List Line) (A : Line → Nat → Nat → Bool) :
    Nat → Nat → Nat → Bool :=
  fun l d s => A (getL lines l) d s

/-- The ordered occurrence list of zone `z` under a zone-keyed assignment. -/
def zoneOccsA (A : Line → Nat → Nat → Bool) (z : Line) (nD nS : Nat) :
    List (Nat × Nat) :=
  (List.range nD).flatMap (fun d =>
    (List.range nS).flatMap (fun s => if A z d s then [(d, s)] else []))

/-- Two-zone instance used as concrete input for witnesses: one zone per
group, one slot per day, so the group-balance model is satisfiable. -/
def linesW : List Line :=
  [⟨"front", 1, 5, "A", []⟩, ⟨"back", 1, 5, "B", []⟩]

/-- The everywhere-true assignment. -/
def xAllW : Nat → Nat → Nat → Bool := fun _ _ _ => true

/-- The two-zone scenario of the spec's §8: A (group "A", interval 1,
duration 10), B (group "B", interval 1, duration 10). -/
def linesT : List Line :=
  [⟨"A", 1, 10, "A", []⟩, ⟨"B", 1, 10, "B", []⟩]

/-- A diagonal assignment on the 2-day, 2-slot grid of `linesT`: line 0 on
cells (0,0) and (1,1), line 1 on cells (0,1) and (1,0). -/
def xDiag : Nat → Nat → Nat → Bool :=
  fun l d s => (l == 0 && d == s) || (l == 1 && !(d == s))

/-! ### Satisfaction helpers -/

lemma sat_mem {x : Nat → Nat → Nat → Bool} {cs : List Cstr} {c : Cstr}
    (hx : satAll x cs = true) (hc : c ∈ cs) : evalC x c = true :=
  List.all_eq_true.mp hx c hc

lemma le_sat {x ts b} (h : evalC x (Cstr.le ts b) = true) : evalSum x ts ≤ b := by
  simpa [evalC] using h

lemma gt_sat {x ts b} (h : evalC x (Cstr.gt ts b) = true) : b < evalSum x ts := by
  simpa [evalC] using h

lemma eq_sat {x ts t} (h : evalC x (Cstr.eq ts t) = true) : evalSum x ts = t := by
  simpa [evalC] using h

lemma imp_pos_sat {x l d s td ts'} (h : evalC x (Cstr.imp l d s td ts' true) = true)
    (h1 : x l d s = true) : x l td ts' = true := by
  simpa [evalC, h1] using h

lemma imp_neg_sat {x l d s td ts'} (h : evalC x (Cstr.imp l d s td ts' false) = true)
    (h1 : x l d s = true) : x l td ts' = false := by
  have h' := h
  simp [evalC, h1] at h'
  exact h'

/-! ### Membership of each constraint family in the built model -/

lemma capCons_mem {lines : List Line} {nD nS sm d s : Nat}
    (hd : d < nD) (hs : s < nS) :
    Cstr.le (capTerms lines d s) sm ∈ capCons lines nD nS sm := by
  simp only [capCons, List.mem_flatMap, List.mem_range, List.mem_map]
  exact ⟨d, hd, s, hs, rfl⟩

lemma groupCons_mem {lines : List Line} {nD nS sm d s : Nat}
    (hd : d < nD) (hs : s < nS) :
    Cstr.gt (groupTerms lines "A" d s) 0 ∈ groupCons lines nD nS sm ∧
    Cstr.le (groupTerms lines "A" d s) (sm / 2) ∈ groupCons lines nD nS sm ∧
    Cstr.gt (groupTerms lines "B" d s) 0 ∈ groupCons lines nD nS sm ∧
    Cstr.le (groupTerms lines "B" d s) (sm / 2) ∈ groupCons lines nD nS sm := by
  refine ⟨?_, ?_, ?_, ?_⟩ <;>
    · simp only [groupCons, List.mem_flatMap, List.mem_range]
      exact ⟨d, hd, s, hs, by simp⟩

lemma targetCons_mem {lines : List Line} {nD nS l : Nat}
    (hl : l < lines.length) :
    Cstr.eq (targetTerms l nD nS) ((maxInterval lines / (getL lines l).interval) * nS) ∈
      targetCons lines nD nS := by
  simp only [targetCons, List.mem_map, List.mem_range]
  exact ⟨l, hl, rfl⟩

lemma betweenIdxs_mem {i0 i1 i : Nat} :
    i ∈ betweenIdxs i0 i1 ↔ i0 < i ∧ i < i1 := by
  simp only [betweenIdxs, List.mem_map, List.mem_range]
  constructor
  · rintro ⟨k, hk, rfl⟩
    omega
  · rintro ⟨h1, h2⟩
    exact ⟨i - (i0 + 1), by omega, by omega⟩

lemma impsFor_pos_mem {lines : List Line} {nD nS l d s : Nat} (hnS : 0 < nS)
    (hnd : d + (getL lines l).interval < nD) :
    Cstr.imp l d s (d + (getL lines l).interval) ((s + 1) % nS) true ∈
      impsFor lines nD nS l d s := by
  have hns : (s + 1) % nS < nS := Nat.mod_lt _ hnS
  simp only [impsFor, List.mem_append]
  left
  simp [hnd, hns]

lemma impsFor_neg_mem {lines : List Line} {nD nS l d s i : Nat} (hnS : 0 < nS)
    (h1 : d * nS + s < i)
    (h2 : i < (d + (getL lines l).interval) * nS + (s + 1) % nS)
    (h3 : i / nS < nD) :
    Cstr.imp l d s (i / nS) (i % nS) false ∈ impsFor lines nD nS l d s := by
  have hmod : i % nS < nS := Nat.mod_lt _ hnS
  simp only [impsFor, List.mem_append, List.mem_filterMap]
  right
  exact ⟨i, betweenIdxs_mem.mpr ⟨h1, h2⟩, by simp [h3, hmod]⟩

lemma intervalCons_mem {lines : List Line} {nD nS l d s : Nat} {c : Cstr}
    (hl : l < lines.length) (hd : d < nD) (hs : s < nS)
    (hc : c ∈ impsFor lines nD nS l d s) :
    c ∈ intervalCons lines nD nS := by
  simp only [intervalCons, List.mem_flatMap, List.mem_range]
  exact ⟨d, hd, s, hs, l, hl, hc⟩

lemma hard_of_cap {lines : List Line} {nS sm : Nat} {c : Cstr}
    (h : c ∈ capCons lines (numDays lines nS) nS sm) :
    c ∈ hardConstraints lines nS sm := by
  simp [hardConstraints, List.mem_append, h]

lemma hard_of_group {lines : List Line} {nS sm : Nat} {c : Cstr}
    (h : c ∈ groupCons lines (numDays lines nS) nS sm) :
    c ∈ hardConstraints lines nS sm := by
  simp [hardConstraints, List.mem_append, h]

lemma hard_of_target {lines : List Line} {nS sm : Nat} {c : Cstr}
    (h : c ∈ targetCons lines (numDays lines nS) nS) :
    c ∈ hardConstraints lines nS sm := by
  simp [hardConstraints, List.mem_append, h]

lemma hard_of_interval {lines : List Line} {nS sm : Nat} {c : Cstr}
    (h : c ∈ intervalCons lines (numDays lines nS) nS) :
    c ∈ hardConstraints lines nS sm := by
  simp [hardConstraints, List.mem_append, h]

/-- Every implication of the per-cell emission targets a day inside the
horizon (`add_checked_implication` drops the rest). -/
lemma impsFor_imp_day {lines : List Line} {nD nS l0 d0 s0 : Nat}
    {l d s td ts' : Nat} {b : Bool}
    (hc : Cstr.imp l d s td ts' b ∈ impsFor lines nD nS l0 d0 s0) :
    td < nD := by
  simp only [impsFor, List.mem_append, List.mem_filterMap] at hc
  rcases hc with hc | ⟨i, _, hi⟩
  · split at hc
    · rename_i h
      simp only [List.mem_singleton, Cstr.imp.injEq] at hc
      obtain ⟨-, -, -, h4, -, -⟩ := hc
      omega
    · simp at hc
  · split at hi
    · rename_i h
      simp only [Option.some.injEq, Cstr.imp.injEq] at hi
      obtain ⟨-, -, -, h4, -, -⟩ := hi
      omega
    · simp at hi

/-- Every implication in the interval-spacing family targets a day inside
the horizon. -/
lemma intervalCons_imp_day {lines : List Line} {nD nS : Nat}
    {l d s td ts' : Nat} {b : Bool}
    (hc : Cstr.imp l d s td ts' b ∈ intervalCons lines nD nS) :
    td < nD := by
  simp only [intervalCons, List.mem_flatMap, List.mem_range] at hc
  obtain ⟨d0, -, s0, -, l0, -, hc⟩ := hc
  exact impsFor_imp_day hc

/-- The capacity, group and target families contain no implication, so every
implication of the full hard model comes from the spacing family. -/
lemma hard_imp_from_interval {lines : List Line} {nS sm : Nat}
    {l d s td ts' : Nat} {b : Bool}
    (hc : Cstr.imp l d s td ts' b ∈ hardConstraints lines nS sm) :
    Cstr.imp l d s td ts' b ∈ intervalCons lines (numDays lines nS) nS := by
  simp only [hardConstraints, List.mem_append] at hc
  rcases hc with ((hc | hc) | hc) | hc
  · exfalso
    simp [capCons, List.mem_flatMap, List.mem_range, List.mem_map] at hc
  · exfalso
    simp [groupCons, List.mem_flatMap, List.mem_range] at hc
  · exfalso
    simp [targetCons, List.mem_map, List.mem_range] at hc
  · exact hc

/-! ### Generic fold and list plumbing -/

lemma foldl_flatMap' {α β γ : Type _} (g : γ → β → γ) (f : α → List β) :
    ∀ (l : List α) (init : γ),
      (l.flatMap f).foldl g init = l.foldl (fun a b => (f b).foldl g a) init := by
  intro l
  induction l with
  | nil => intro init; rfl
  | cons a l ih =>
      intro init
      simp only [List.flatMap_cons, List.foldl_append, List.foldl_cons]
      exact ih _

lemma foldl_filterMap' {α β γ : Type _} (g : γ → β → γ) (f : α → Option β) :
    ∀ (l : List α) (init : γ),
      (l.filterMap f).foldl g init
        = l.foldl (fun a b => match f b with | some v => g a v | none => a) init := by
  intro l
  induction l with
  | nil => intro init; rfl
  | cons a l ih =>
      intro init
      cases h : f a <;> simp only [List.filterMap_cons, h, List.foldl_cons] <;> exact ih _

lemma filter_flatMap' {α β : Type _} (l : List α) (f : α → List β) (p : β → Bool) :
    (l.flatMap f).filter p = l.flatMap (fun a => (f a).filter p) := by
  induction l with
  | nil => rfl
  | cons a l ih => simp only [List.flatMap_cons, List.filter_append, ih]

lemma map_flatMap' {α β γ : Type _} (l : List α) (f : α → List β) (g : β → γ) :
    (l.flatMap f).map g = l.flatMap (fun a => (f a).map g) := by
  induction l with
  | nil => rfl
  | cons a l ih => simp only [List.flatMap_cons, List.map_append, ih]

lemma filter_filterMap' {α β : Type _} (l : List α) (f : α → Option β) (p : β → Bool) :
    (l.filterMap f).filter p
      = l.filterMap (fun a => match f a with
          | some b => if p b then some b else none
          | none => none) := by
  induction l with
  | nil => rfl
  | cons a l ih =>
      cases h : f a with
      | none => simpa [List.filterMap_cons, h] using ih
      | some b =>
          by_cases hp : p b <;> simp [List.filterMap_cons, h, hp, ih]

lemma filterMap_range_single {β : Type _} {o : Option β} {l n : Nat} (hl : l < n) :
    (List.range n).filterMap (fun i => if i = l then o else none) = o.toList := by
  induction n with
  | zero => omega
  | succ n ih =>
      rw [List.range_succ, List.filterMap_append]
      by_cases h : l = n
      · subst h
        have hnil : (List.range l).filterMap (fun i => if i = l then o else none) = [] := by
          rw [List.filterMap_eq_nil_iff]
          intro i hi
          simp only [List.mem_range] at hi
          simp [Nat.ne_of_lt hi]
        cases o <;> simp [hnil]
      · have hl' : l < n := by omega
        have : (List.filterMap (fun i => if i = l then o else none) [n]) = [] := by
          simp [Ne.symm h]
        simp [ih hl', this]

/-! ### The zone-major view as an event fold -/

/-- The (line record, (day, slot)) pairs the decoder sweep appends for one
cell, in line order. -/
def cellEvents (lines : List Line) (x : Nat → Nat → Nat → Bool) (d s : Nat) :
    List (Line × Nat × Nat) :=
  (List.range lines.length).filterMap (fun l =>
    if x l d s then some (getL lines l, (d, s)) else none)

/-- All append events of the decoder sweep, in sweep order. -/
def allEvents (lines : List Line) (x : Nat → Nat → Nat → Bool) (nD nS : Nat) :
    List (Line × Nat × Nat) :=
  (List.range nD).flatMap (fun d =>
    (List.range nS).flatMap (fun s => cellEvents lines x d s))

/-- Folding a list of append events into the association list. -/
def applyEvents (acc : List (Line × List (Nat × Nat))) (evs : List (Line × Nat × Nat)) :
    List (Line × List (Nat × Nat)) :=
  evs.foldl (fun a e => lpAdd a e.1 e.2) acc

lemma buildLP_eq_applyEvents (lines : List Line) (x : Nat → Nat → Nat → Bool)
    (nD nS : Nat) :
    buildLP lines x nD nS = applyEvents [] (allEvents lines x nD nS) := by
  have hcell : ∀ (d s : Nat) (acc : List (Line × List (Nat × Nat))),
      (cellEvents lines x d s).foldl (fun a e => lpAdd a e.1 e.2) acc
        = (List.range lines.length).foldl (fun a l =>
            if x l d s then lpAdd a (getL lines l) (d, s) else a) acc := by
    intro d s acc
    rw [cellEvents, foldl_filterMap']
    congr 1
    funext a l
    by_cases h : x l d s <;> simp [h]
  unfold buildLP applyEvents allEvents
  rw [foldl_flatMap']
  congr 1
  funext a d
  rw [foldl_flatMap']
  congr 1
  funext a' s
  exact (hcell d s a').symm

lemma lpGet_lpAdd_same (lp : List (Line × List (Nat × Nat))) (z : Line) (v : Nat × Nat) :
    lpGet (lpAdd lp z v) z = lpGet lp z ++ [v] := by
  induction lp with
  | nil => simp [lpAdd, lpGet]
  | cons kv rest ih =>
      obtain ⟨k, vs⟩ := kv
      by_cases h : k = z <;> simp [lpAdd, lpGet, h, ih]

lemma lpGet_lpAdd_ne (lp : List (Line × List (Nat × Nat))) {z w : Line}
    (h : w ≠ z) (v : Nat × Nat) :
    lpGet (lpAdd lp w v) z = lpGet lp z := by
  have hzw : ¬ (z = w) := fun hh => h hh.symm
  induction lp with
  | nil => simp [lpAdd, lpGet, h]
  | cons kv rest ih =>
      obtain ⟨k, vs⟩ := kv
      by_cases hk : k = w
      · subst hk
        simp [lpAdd, lpGet, h]
      · by_cases hz : k = z <;> simp [lpAdd, lpGet, hk, hz, hzw, ih]

lemma lpGet_applyEvents (evs : List (Line × Nat × Nat)) :
    ∀ (acc : List (Line × List (Nat × Nat))) (z : Line),
      lpGet (applyEvents acc evs) z
        = lpGet acc z ++ (evs.filter (fun e => e.1 == z)).map (fun e => e.2) := by
  induction evs with
  | nil => intro acc z; simp [applyEvents]
  | cons e evs ih =>
      intro acc z
      have hstep : applyEvents acc (e :: evs) = applyEvents (lpAdd acc e.1 e.2) evs := rfl
      rw [hstep, ih]
      by_cases h : e.1 = z
      · subst h
        rw [lpGet_lpAdd_same]
        simp [List.filter_cons, List.append_assoc]
      · rw [lpGet_lpAdd_ne acc h e.2]
        simp [List.filter_cons, h]

lemma getL_inj {lines : List Line} (hnd : lines.Nodup) {i j : Nat}
    (hi : i < lines.length) (hj : j < lines.length)
    (h : getL lines i = getL lines j) : i = j := by
  have h1 : getL lines i = lines.get ⟨i, hi⟩ := by
    rw [getL, List.getD_eq_getElem lines _ hi]
    exact (List.get_eq_getElem lines ⟨i, hi⟩).symm
  have h2 : getL lines j = lines.get ⟨j, hj⟩ := by
    rw [getL, List.getD_eq_getElem lines _ hj]
    exact (List.get_eq_getElem lines ⟨j, hj⟩).symm
  have hget := (List.Nodup.get_inj_iff hnd).mp (h1 ▸ h2 ▸ h)
  exact congrArg Fin.val hget

lemma cellEvents_filter {lines : List Line} (x : Nat → Nat → Nat → Bool)
    (d s : Nat) (hnd : lines.Nodup) {l : Nat} (hl : l < lines.length) :
    (cellEvents lines x d s).filter (fun e => e.1 == getL lines l)
      = if x l d s then [(getL lines l, (d, s))] else [] := by
  rw [cellEvents, filter_filterMap']
  refine (@List.filterMap_congr _ _ _
    (fun i => if i = l then (if x l d s then some (getL lines l, (d, s)) else none) else none)
    _ ?_).trans ?_
  · intro i hi
    simp only [List.mem_range] at hi
    by_cases hil : i = l
    · subst hil
      cases hx : x i d s <;> simp [hx]
    · cases hx : x i d s
      · simp [hx, hil]
      · have hne : ¬ (getL lines i = getL lines l) := fun hEq => hil (getL_inj hnd hi hl hEq)
        simp [hx, hil, hne]
  · rw [filterMap_range_single hl]
    cases hx : x l d s <;> simp [hx]

lemma allEvents_filter {lines : List Line} (x : Nat → Nat → Nat → Bool)
    (nD nS : Nat) (hnd : lines.Nodup) {l : Nat} (hl : l < lines.length) :
    ((allEvents lines x nD nS).filter (fun e => e.1 == getL lines l)).map (fun e => e.2)
      = zoneOccs x l nD nS := by
  unfold allEvents zoneOccs
  simp only [filter_flatMap', map_flatMap']
  congr 1
  funext d
  congr 1
  funext s
  rw [cellEvents_filter x d s hnd hl]
  by_cases hx : x l d s <;> simp [hx]

/-- The decoder's zone-major entry of line `l` is exactly that line's ordered
occurrence list (distinct line records, as the dict keying assumes). -/
lemma lpGet_buildLP {lines : List Line} (x : Nat → Nat → Nat → Bool)
    (nD nS : Nat) (hnd : lines.Nodup) {l : Nat} (hl : l < lines.length) :
    lpGet (buildLP lines x nD nS) (getL lines l) = zoneOccs x l nD nS := by
  rw [buildLP_eq_applyEvents, lpGet_applyEvents]
  rw [allEvents_filter x nD nS hnd hl]
  simp [lpGet]

/-! ### Occurrence lists in cell-index form -/

lemma mulAdd_div {n k nS : Nat} (hnS : 0 < nS) (hk : k < nS) :
    (n * nS + k) / nS = n := by
  rw [mul_comm, Nat.mul_add_div hnS, Nat.div_eq_of_lt hk, Nat.add_zero]

lemma mulAdd_mod {n k nS : Nat} (hk : k < nS) :
    (n * nS + k) % nS = k := by
  rw [Nat.add_comm, Nat.add_mul_mod_self_right, Nat.mod_eq_of_lt hk]

lemma flatMap_if_singleton {α : Type _} (r : List Nat) (q : Nat → Bool) (f : Nat → α) :
    r.flatMap (fun s => if q s then [f s] else []) = (r.filter q).map f := by
  induction r with
  | nil => rfl
  | cons a r ih => cases hq : q a <;> simp [List.filter_cons, hq, ih]

lemma zoneOccs_eq_occIdx {x : Nat → Nat → Nat → Bool} {l nS : Nat} (hnS : 0 < nS) :
    ∀ nD, zoneOccs x l nD nS = (occIdx x l nD nS).map (fun i => (i / nS, i % nS)) := by
  intro nD
  induction nD with
  | zero => simp [zoneOccs, occIdx]
  | succ n ih =>
      rw [zoneOccs, List.range_succ, List.flatMap_append]
      rw [occIdx, Nat.succ_mul, List.range_add, List.filter_append, List.map_append]
      rw [zoneOccs, occIdx] at ih
      rw [ih]
      congr 1
      simp only [List.flatMap_cons, List.flatMap_nil, List.append_nil]
      rw [List.filter_map, List.map_map]
      have hfil : (List.range nS).filter ((fun i => x l (i / nS) (i % nS)) ∘ (fun k => n * nS + k))
          = (List.range nS).filter (fun k => x l n k) := by
        apply List.filter_congr
        intro k hk
        simp only [List.mem_range] at hk
        simp only [Function.comp_apply, mulAdd_div hnS hk, mulAdd_mod hk]
      rw [hfil, flatMap_if_singleton]
      apply List.map_congr_left
      intro k hk
      have hk' : k < nS := by
        have := List.mem_filter.mp hk
        simpa using List.mem_range.mp this.1
      simp only [Function.comp_apply, mulAdd_div hnS hk', mulAdd_mod hk']

/-! ### Consecutive elements of a filtered range -/

lemma filter_range_getLast_spec (p : Nat → Bool) :
    ∀ n a, ((List.range n).filter p).getLast? = some a →
      p a = true ∧ a < n ∧ ∀ k, a < k → k < n → p k = false := by
  intro n
  induction n with
  | zero => intro a ha; simp at ha
  | succ n ih =>
      intro a ha
      rw [List.range_succ, List.filter_append] at ha
      cases hpn : p n
      · rw [show List.filter p [n] = [] by simp [hpn], List.append_nil] at ha
        obtain ⟨h1, h2, h3⟩ := ih a ha
        refine ⟨h1, by omega, fun k hk1 hk2 => ?_⟩
        rcases Nat.lt_succ_iff_lt_or_eq.mp hk2 with h | h
        · exact h3 k hk1 h
        · subst h; exact hpn
      · rw [show List.filter p [n] = [n] by simp [hpn], List.getLast?_concat] at ha
        obtain rfl : n = a := Option.some.inj ha
        exact ⟨hpn, Nat.lt_succ_self _, fun k hk1 hk2 => by omega⟩

lemma chain'_filter_range (R : Nat → Nat → Prop) (p : Nat → Bool) :
    ∀ n, (∀ a b, a < b → b < n → p a = true → p b = true →
        (∀ k, a < k → k < b → p k = false) → R a b) →
      List.Chain' R ((List.range n).filter p) := by
  intro n
  induction n with
  | zero => intro _; simp
  | succ n ih =>
      intro hR
      rw [List.range_succ, List.filter_append]
      have hchain := ih (fun a b h1 h2 h3 h4 h5 => hR a b h1 (by omega) h3 h4 h5)
      cases hpn : p n
      · simpa [hpn] using hchain
      · rw [show List.filter p [n] = [n] by simp [hpn]]
        refine List.Chain'.append hchain (by simp) ?_
        intro a ha y hy
        have hy' : y = n := by
          simp only [List.head?_cons, Option.mem_def, Option.some.injEq] at hy
          exact hy.symm
        rw [hy']
        obtain ⟨h1, h2, h3⟩ := filter_range_getLast_spec p n a (Option.mem_def.mp ha)
        exact hR a n h2 (Nat.lt_succ_self _) h1 hpn (fun k hk1 hk2 => h3 k hk1 hk2)

/-! ### The spacing consequence of the interval constraints -/

/-- Under any assignment satisfying the built model, two occurrences of a
line that are consecutive in cell-index order sit exactly one interval of
days and one rotated slot apart. -/
lemma spacing_core {lines : List Line} {nS sm : Nat} {x : Nat → Nat → Nat → Bool}
    (hnS : 0 < nS)
    (hx : satAll x (hardConstraints lines nS sm) = true)
    {l : Nat} (hl : l < lines.length) (hI : 0 < (getL lines l).interval) :
    ∀ a b, a < b → b < numDays lines nS * nS →
      x l (a / nS) (a % nS) = true → x l (b / nS) (b % nS) = true →
      (∀ k, a < k → k < b → x l (k / nS) (k % nS) = false) →
      b / nS = a / nS + (getL lines l).interval ∧ b % nS = (a % nS + 1) % nS := by
  intro a b hab hbn pa pb hbetween
  set nD := numDays lines nS with hnDdef
  set I := (getL lines l).interval with hIdef
  set d := a / nS with hd
  set s := a % nS with hs
  have hseq : a = d * nS + s := by
    rw [hd, hs, Nat.mul_comm (a / nS) nS]
    exact (Nat.div_add_mod a nS).symm
  have hsa : s < nS := Nat.mod_lt _ hnS
  have hdn : d < nD := (Nat.div_lt_iff_lt_mul hnS).mpr (lt_trans hab hbn)
  set ns' := (s + 1) % nS with hns'
  have hns'lt : ns' < nS := Nat.mod_lt _ hnS
  set nxt := (d + I) * nS + ns' with hnxt
  have hImulS : nS ≤ I * nS := Nat.le_mul_of_pos_left nS hI
  have hdistrib : (d + I) * nS = d * nS + I * nS := add_mul d I nS
  have ha_nxt : a < nxt := by omega
  have hnxt_div : nxt / nS = d + I := mulAdd_div hnS hns'lt
  have hnxt_mod : nxt % nS = ns' := mulAdd_mod hns'lt
  have hbD : b / nS < nD := (Nat.div_lt_iff_lt_mul hnS).mpr hbn
  by_cases hcase : d + I < nD
  · have hposmem : Cstr.imp l d s (d + I) ns' true ∈ hardConstraints lines nS sm :=
      hard_of_interval (intervalCons_mem hl hdn hsa (impsFor_pos_mem hnS hcase))
    have hxnxt : x l (d + I) ns' = true := imp_pos_sat (sat_mem hx hposmem) pa
    have pnxt : x l (nxt / nS) (nxt % nS) = true := by
      rw [hnxt_div, hnxt_mod]; exact hxnxt
    have hnxtlt : nxt < nD * nS := by
      have h3 : (d + I + 1) * nS ≤ nD * nS := Nat.mul_le_mul_right nS (by omega)
      have h4 : (d + I + 1) * nS = (d + I) * nS + nS := Nat.succ_mul _ _
      omega
    rcases Nat.lt_trichotomy b nxt with hlt | heq | hgt
    · exfalso
      have hnegmem : Cstr.imp l d s (b / nS) (b % nS) false ∈ hardConstraints lines nS sm :=
        hard_of_interval (intervalCons_mem hl hdn hsa
          (impsFor_neg_mem hnS (by omega) hlt hbD))
      have hf := imp_neg_sat (sat_mem hx hnegmem) pa
      exact absurd (pb.symm.trans hf) (by decide)
    · exact ⟨heq ▸ hnxt_div, heq ▸ hnxt_mod⟩
    · exfalso
      have hf := hbetween nxt ha_nxt hgt
      exact absurd (pnxt.symm.trans hf) (by decide)
  · exfalso
    have hge : nD ≤ d + I := Nat.le_of_not_lt hcase
    have hnxtge : nD * nS ≤ nxt := by
      have hmul : nD * nS ≤ (d + I) * nS := Nat.mul_le_mul_right nS hge
      omega
    have hblt : b < nxt := lt_of_lt_of_le hbn hnxtge
    have hnegmem : Cstr.imp l d s (b / nS) (b % nS) false ∈ hardConstraints lines nS sm :=
      hard_of_interval (intervalCons_mem hl hdn hsa
        (impsFor_neg_mem hnS (by omega) hblt hbD))
    have hf := imp_neg_sat (sat_mem hx hnegmem) pa
    exact absurd (pb.symm.trans hf) (by decide)

/-- The occurrence list of a line under a satisfying assignment forms a
chain: each step adds the line's interval in days and rotates the slot. -/
lemma zoneOccs_chain {lines : List Line} {nS sm : Nat} {x : Nat → Nat → Nat → Bool}
    (hnS : 0 < nS)
    (hx : satAll x (hardConstraints lines nS sm) = true)
    {l : Nat} (hl : l < lines.length) (hI : 0 < (getL lines l).interval) :
    List.Chain' (fun p q => q.1 = p.1 + (getL lines l).interval ∧ q.2 = (p.2 + 1) % nS)
      (zoneOccs x l (numDays lines nS) nS) := by
  rw [zoneOccs_eq_occIdx hnS, List.chain'_map]
  apply chain'_filter_range
  intro a b h1 h2 h3 h4 h5
  exact spacing_core hnS hx hl hI a b h1 h2 h3 h4 h5

/-! ### Duration sums of decoded slots -/

lemma evalSum_append (x : Nat → Nat → Nat → Bool) (ts1 ts2 : List LinTerm) :
    evalSum x (ts1 ++ ts2) = evalSum x ts1 + evalSum x ts2 := by
  simp [evalSum, List.map_append, List.sum_append]

lemma sum_slotPlan_general (lines : List Line) (x : Nat → Nat → Nat → Bool)
    (d s : Nat) (p : Line → Bool) :
    ∀ is' : List Nat,
      ((((is'.filterMap (fun l => if x l d s then some (getL lines l) else none)).filter p).map
          (fun z => z.duration)).sum)
        = evalSum x ((is'.filter (fun l => p (getL lines l))).map
            (fun l => (⟨(getL lines l).duration, l, d, s⟩ : LinTerm))) := by
  intro is'
  induction is' with
  | nil => rfl
  | cons l is' ih =>
      cases hx : x l d s <;> cases hp : p (getL lines l) <;>
        simp [List.filterMap_cons, List.filter_cons, hx, hp, evalSum, evalTerm, ih] <;>
        omega

lemma slotPlan_dur_sum (lines : List Line) (x : Nat → Nat → Nat → Bool) (d s : Nat) :
    ((slotPlan lines x d s).map (fun z => z.duration)).sum = evalSum x (capTerms lines d s) := by
  have h := sum_slotPlan_general lines x d s (fun _ => true) (List.range lines.length)
  simpa [slotPlan, capTerms, List.filter_true] using h

lemma slotPlan_group_sum (lines : List Line) (x : Nat → Nat → Nat → Bool)
    (d s : Nat) (g : String) :
    (((slotPlan lines x d s).filter (fun z => z.group == g)).map (fun z => z.duration)).sum
      = evalSum x (groupTerms lines g d s) := by
  have h := sum_slotPlan_general lines x d s (fun z => z.group == g) (List.range lines.length)
  simpa [slotPlan, groupTerms] using h

/-! ### Occurrence counts -/

lemma zoneOccs_inner_length (x : Nat → Nat → Nat → Bool) (l d : Nat) :
    ∀ ss : List Nat,
      (ss.flatMap (fun s => if x l d s then [(d, s)] else [])).length
        = evalSum x (ss.map (fun s => (⟨1, l, d, s⟩ : LinTerm))) := by
  intro ss
  induction ss with
  | nil => rfl
  | cons s ss ih =>
      cases hx : x l d s <;>
        simp [List.flatMap_cons, hx, evalSum, evalTerm, ih] <;> omega

lemma zoneOccs_length (x : Nat → Nat → Nat → Bool) (l nD nS : Nat) :
    (zoneOccs x l nD nS).length = evalSum x (targetTerms l nD nS) := by
  rw [zoneOccs, targetTerms]
  induction nD with
  | zero => rfl
  | succ n ih =>
      rw [List.range_succ, List.flatMap_append, List.flatMap_append,
        List.length_append, evalSum_append, ih]
      simp only [List.flatMap_cons, List.flatMap_nil, List.append_nil]
      rw [zoneOccs_inner_length x l n (List.range nS)]

/-! ### The lcm characterization of the horizon -/

lemma foldl_lcm_dvd_init : ∀ (l : List Nat) (init : Nat), init ∣ l.foldl Nat.lcm init := by
  intro l
  induction l with
  | nil => intro init; exact dvd_refl init
  | cons a l ih =>
      intro init
      exact dvd_trans (Nat.dvd_lcm_left init a) (ih (Nat.lcm init a))

lemma mem_dvd_foldl_lcm : ∀ (l : List Nat) (init a : Nat), a ∈ l → a ∣ l.foldl Nat.lcm init := by
  intro l
  induction l with
  | nil => intro init a ha; simp at ha
  | cons b l ih =>
      intro init a ha
      rcases List.mem_cons.mp ha with rfl | ha'
      · exact dvd_trans (Nat.dvd_lcm_right init a) (foldl_lcm_dvd_init l (Nat.lcm init a))
      · exact ih (Nat.lcm init b) a ha'

lemma foldl_lcm_dvd (m : Nat) : ∀ (l : List Nat) (init : Nat),
    init ∣ m → (∀ a ∈ l, a ∣ m) → l.foldl Nat.lcm init ∣ m := by
  intro l
  induction l with
  | nil => intro init h1 _; exact h1
  | cons a l ih =>
      intro init h1 h2
      exact ih (Nat.lcm init a) (Nat.lcm_dvd h1 (h2 a (List.mem_cons_self a l)))
        (fun b hb => h2 b (List.mem_cons_of_mem a hb))

lemma mem_intervalsOf_iff {lines : List Line} {a : Nat} :
    a ∈ intervalsOf lines ↔ ∃ z ∈ lines, z.interval = a := by
  have hgo : ∀ (ls : List Line) (acc : List Nat) (a : Nat),
      a ∈ ls.foldl (fun acc z => if z.interval ∈ acc then acc else acc ++ [z.interval]) acc
        ↔ a ∈ acc ∨ ∃ z ∈ ls, z.interval = a := by
    intro ls
    induction ls with
    | nil => intro acc a; simp
    | cons z ls ih =>
        intro acc a
        rw [List.foldl_cons]
        by_cases hz : z.interval ∈ acc
        · rw [if_pos hz, ih]
          constructor
          · rintro (h | ⟨w, hw, rfl⟩)
            · exact Or.inl h
            · exact Or.inr ⟨w, List.mem_cons_of_mem z hw, rfl⟩
          · rintro (h | ⟨w, hw, rfl⟩)
            · exact Or.inl h
            · rcases List.mem_cons.mp hw with rfl | hw'
              · exact Or.inl hz
              · exact Or.inr ⟨w, hw', rfl⟩
        · rw [if_neg hz, ih]
          simp only [List.mem_append, List.mem_singleton]
          constructor
          · rintro ((h | h) | ⟨w, hw, rfl⟩)
            · exact Or.inl h
            · exact Or.inr ⟨z, List.mem_cons_self z ls, h.symm⟩
            · exact Or.inr ⟨w, List.mem_cons_of_mem z hw, rfl⟩
          · rintro (h | ⟨w, hw, rfl⟩)
            · exact Or.inl (Or.inl h)
            · rcases List.mem_cons.mp hw with rfl | hw'
              · exact Or.inl (Or.inr rfl)
              · exact Or.inr ⟨w, hw', rfl⟩
  rw [intervalsOf, hgo]
  simp

lemma interval_dvd_maxInterval {lines : List Line} {z : Line} (hz : z ∈ lines) :
    z.interval ∣ maxInterval lines :=
  mem_dvd_foldl_lcm (intervalsOf lines) 1 z.interval
    (mem_intervalsOf_iff.mpr ⟨z, hz, rfl⟩)

lemma maxInterval_dvd {lines : List Line} {m : Nat}
    (h : ∀ z ∈ lines, z.interval ∣ m) : maxInterval lines ∣ m := by
  apply foldl_lcm_dvd m (intervalsOf lines) 1 (one_dvd m)
  intro a ha
  obtain ⟨z, hzmem, rfl⟩ := mem_intervalsOf_iff.mp ha
  exact h z hzmem

/-! ### The decoder on a zone-keyed assignment -/

lemma filterMap_range_getL {β : Type _} (lines : List Line) (g : Line → Option β) :
    (List.range lines.length).filterMap (fun i => g (getL lines i)) = lines.filterMap g := by
  induction lines with
  | nil => rfl
  | cons z lines ih =>
      rw [List.length_cons, List.range_succ_eq_map, List.filterMap_cons]
      rw [List.filterMap_map]
      have hcomp : ((fun i => g (getL (z :: lines) i)) ∘ Nat.succ)
          = fun i => g (getL lines i) := by
        funext i
        simp [Function.comp, getL]
      rw [hcomp, ih]
      cases hz : g (getL (z :: lines) 0) <;> simp [getL] at hz <;>
        simp [List.filterMap_cons, hz]

lemma filterMap_guard {α : Type _} (l : List α) (p : α → Bool) :
    l.filterMap (fun a => if p a then some a else none) = l.filter p := by
  induction l with
  | nil => rfl
  | cons a l ih => cases hp : p a <;> simp [List.filterMap_cons, List.filter_cons, hp, ih]

/-- Per cell, the decoder lists exactly the watered zones in declaration
order. -/
lemma slotPlan_xOf (lines : List Line) (A : Line → Nat → Nat → Bool) (d s : Nat) :
    slotPlan lines (xOf lines A) d s = lines.filter (fun z => A z d s) := by
  rw [slotPlan]
  rw [show (fun l => if xOf lines A l d s then some (getL lines l) else none)
      = fun l => (fun z => if A z d s then some z else none) (getL lines l) from rfl]
  rw [filterMap_range_getL lines (fun z => if A z d s then some z else none)]
  exact filterMap_guard lines (fun z => A z d s)

lemma zoneOccs_xOf (lines : List Line) (A : Line → Nat → Nat → Bool) (l nD nS : Nat) :
    zoneOccs (xOf lines A) l nD nS = zoneOccsA A (getL lines l) nD nS := rfl

lemma getL_mem {lines : List Line} {l : Nat} (hl : l < lines.length) :
    getL lines l ∈ lines := by
  rw [getL, List.getD_eq_getElem lines _ hl]
  exact List.getElem_mem hl

/-- C3: for a non-empty zone list with positive intervals, the cycle
calculation's `max_interval` is the least common multiple of the zone
intervals (a common multiple of each, dividing every common multiple),
`num_days = max_interval * daily_slots`, and each zone's target is
`(max_interval / interval) * daily_slots` with the division exact. -/
theorem c3_cycle_calc (lines : List Line) (nS : Nat)
    (hne : lines ≠ [])
    (hpos : ∀ z ∈ lines, 0 < z.interval) :
    (∀ z ∈ lines, z.interval ∣ maxInterval lines)
    ∧ (∀ m : Nat, (∀ z ∈ lines, z.interval ∣ m) → maxInterval lines ∣ m)
    ∧ numDays lines nS = maxInterval lines * nS
    ∧ (∀ l, l < lines.length →
        (lineTargets lines nS).getD l 0
            = (maxInterval lines / (getL lines l).interval) * nS
        ∧ (maxInterval lines / (getL lines l).interval) * (getL lines l).interval
            = maxInterval lines) := by
  refine ⟨fun z hz => interval_dvd_maxInterval hz, fun m hm => maxInterval_dvd hm, rfl, ?_⟩
  intro l hl
  constructor
  · rw [lineTargets, List.getD_eq_getElem _ _ (by simpa using hl), List.getElem_map]
    rw [getL, List.getD_eq_getElem lines _ hl]
  · exact Nat.div_mul_cancel (interval_dvd_maxInterval (getL_mem hl))

/-- Witness for C3 at the concrete two-zone input `linesW`. -/
theorem c3_cycle_calc_witness :
    (linesW ≠ [] ∧ ∀ z ∈ linesW, 0 < z.interval)
    ∧ ((∀ z ∈ linesW, z.interval ∣ maxInterval linesW)
      ∧ (∀ m : Nat, (∀ z ∈ linesW, z.interval ∣ m) → maxInterval linesW ∣ m)
      ∧ numDays linesW 1 = maxInterval linesW * 1
      ∧ (∀ l, l < linesW.length →
          (lineTargets linesW 1).getD l 0
              = (maxInterval linesW / (getL linesW l).interval) * 1
          ∧ (maxInterval linesW / (getL linesW l).interval) * (getL linesW l).interval
              = maxInterval linesW)) :=
  ⟨⟨by decide, by decide⟩, c3_cycle_calc linesW 1 (by decide) (by decide)⟩

/-- C4: for every (day, slot) of the horizon the built model contains the
capacity constraint bounding the duration sum by `slot_minutes`, and under
any satisfying assignment the decoded slot's total duration respects it. -/
theorem c4_capacity (lines : List Line) (nS sm : Nat) (x : Nat → Nat → Nat → Bool)
    (hx : satAll x (hardConstraints lines nS sm) = true) :
    ∀ d, d < numDays lines nS → ∀ s, s < nS →
      Cstr.le (capTerms lines d s) sm ∈ hardConstraints lines nS sm
      ∧ evalSum x (capTerms lines d s) ≤ sm
      ∧ ((slotPlan lines x d s).map (fun z => z.duration)).sum ≤ sm := by
  intro d hd s hs
  have hmem : Cstr.le (capTerms lines d s) sm ∈ hardConstraints lines nS sm :=
    hard_of_cap (capCons_mem hd hs)
  have hle := le_sat (sat_mem hx hmem)
  exact ⟨hmem, hle, by rw [slotPlan_dur_sum]; exact hle⟩

/-- Witness for C4 at the concrete satisfiable input `linesW`, `xAllW`. -/
theorem c4_capacity_witness :
    satAll xAllW (hardConstraints linesW 1 10) = true
    ∧ (∀ d, d < numDays linesW 1 → ∀ s, s < 1 →
        Cstr.le (capTerms linesW d s) 10 ∈ hardConstraints linesW 1 10
        ∧ evalSum xAllW (capTerms linesW d s) ≤ 10
        ∧ ((slotPlan linesW xAllW d s).map (fun z => z.duration)).sum ≤ 10) :=
  ⟨by decide, c4_capacity linesW 1 10 xAllW (by decide)⟩

/-- C2: for every (day, slot) the built model contains the four group-balance
constraints (each group's duration sum strictly positive and at most
`slot_minutes / 2`), and any satisfying assignment's decoded slot carries
watering from both groups within those bounds. -/
theorem c2_group_balance (lines : List Line) (nS sm : Nat) (x : Nat → Nat → Nat → Bool)
    (hx : satAll x (hardConstraints lines nS sm) = true) :
    ∀ d, d < numDays lines nS → ∀ s, s < nS →
      (Cstr.gt (groupTerms lines "A" d s) 0 ∈ hardConstraints lines nS sm
        ∧ Cstr.le (groupTerms lines "A" d s) (sm / 2) ∈ hardConstraints lines nS sm
        ∧ Cstr.gt (groupTerms lines "B" d s) 0 ∈ hardConstraints lines nS sm
        ∧ Cstr.le (groupTerms lines "B" d s) (sm / 2) ∈ hardConstraints lines nS sm)
      ∧ (0 < evalSum x (groupTerms lines "A" d s)
        ∧ evalSum x (groupTerms lines "A" d s) ≤ sm / 2)
      ∧ (0 < evalSum x (groupTerms lines "B" d s)
        ∧ evalSum x (groupTerms lines "B" d s) ≤ sm / 2)
      ∧ (((slotPlan lines x d s).filter (fun z => z.group == "A")).map
          (fun z => z.duration)).sum = evalSum x (groupTerms lines "A" d s)
      ∧ (((slotPlan lines x d s).filter (fun z => z.group == "B")).map
          (fun z => z.duration)).sum = evalSum x (groupTerms lines "B" d s) := by
  intro d hd s hs
  obtain ⟨m1, m2, m3, m4⟩ :=
    @groupCons_mem lines (numDays lines nS) nS sm d s hd hs
  refine ⟨⟨hard_of_group m1, hard_of_group m2, hard_of_group m3, hard_of_group m4⟩,
    ⟨gt_sat (sat_mem hx (hard_of_group m1)), le_sat (sat_mem hx (hard_of_group m2))⟩,
    ⟨gt_sat (sat_mem hx (hard_of_group m3)), le_sat (sat_mem hx (hard_of_group m4))⟩,
    slotPlan_group_sum lines x d s "A", slotPlan_group_sum lines x d s "B"⟩

/-- Witness for C2 at the concrete satisfiable input `linesW`, `xAllW`. -/
theorem c2_group_balance_witness :
    satAll xAllW (hardConstraints linesW 1 10) = true
    ∧ (∀ d, d < numDays linesW 1 → ∀ s, s < 1 →
        (Cstr.gt (groupTerms linesW "A" d s) 0 ∈ hardConstraints linesW 1 10
          ∧ Cstr.le (groupTerms linesW "A" d s) (10 / 2) ∈ hardConstraints linesW 1 10
          ∧ Cstr.gt (groupTerms linesW "B" d s) 0 ∈ hardConstraints linesW 1 10
          ∧ Cstr.le (groupTerms linesW "B" d s) (10 / 2) ∈ hardConstraints linesW 1 10)
        ∧ (0 < evalSum xAllW (groupTerms linesW "A" d s)
          ∧ evalSum xAllW (groupTerms linesW "A" d s) ≤ 10 / 2)
        ∧ (0 < evalSum xAllW (groupTerms linesW "B" d s)
          ∧ evalSum xAllW (groupTerms linesW "B" d s) ≤ 10 / 2)
        ∧ (((slotPlan linesW xAllW d s).filter (fun z => z.group == "A")).map
            (fun z => z.duration)).sum = evalSum xAllW (groupTerms linesW "A" d s)
        ∧ (((slotPlan linesW xAllW d s).filter (fun z => z.group == "B")).map
            (fun z => z.duration)).sum = evalSum xAllW (groupTerms linesW "B" d s)) :=
  ⟨by decide, c2_group_balance linesW 1 10 xAllW (by decide)⟩

/-- C5: for every zone the built model contains the exact-count target
constraint, and under any satisfying assignment (with distinct line records)
the zone-major occurrence list has exactly
`(max_interval / interval) * daily_slots` entries. -/
theorem c5_target_counts (lines : List Line) (nS sm : Nat) (x : Nat → Nat → Nat → Bool)
    (hnd : lines.Nodup)
    (hx : satAll x (hardConstraints lines nS sm) = true) :
    ∀ l, l < lines.length →
      Cstr.eq (targetTerms l (numDays lines nS) nS)
          ((maxInterval lines / (getL lines l).interval) * nS)
        ∈ hardConstraints lines nS sm
      ∧ (zoneOccs x l (numDays lines nS) nS).length
          = (maxInterval lines / (getL lines l).interval) * nS
      ∧ (lpGet (buildLP lines x (numDays lines nS) nS) (getL lines l)).length
          = (maxInterval lines / (getL lines l).interval) * nS := by
  intro l hl
  have hmem := @hard_of_target lines nS sm _ (targetCons_mem hl)
  have heq := eq_sat (sat_mem hx hmem)
  have hlen : (zoneOccs x l (numDays lines nS) nS).length
      = (maxInterval lines / (getL lines l).interval) * nS := by
    rw [zoneOccs_length]
    exact heq
  refine ⟨hmem, hlen, ?_⟩
  rw [lpGet_buildLP x (numDays lines nS) nS hnd hl]
  exact hlen

/-- Witness for C5 at the concrete satisfiable input `linesW`, `xAllW`. -/
theorem c5_target_counts_witness :
    (linesW.Nodup ∧ satAll xAllW (hardConstraints linesW 1 10) = true)
    ∧ (∀ l, l < linesW.length →
        Cstr.eq (targetTerms l (numDays linesW 1) 1)
            ((maxInterval linesW / (getL linesW l).interval) * 1)
          ∈ hardConstraints linesW 1 10
        ∧ (zoneOccs xAllW l (numDays linesW 1) 1).length
            = (maxInterval linesW / (getL linesW l).interval) * 1
        ∧ (lpGet (buildLP linesW xAllW (numDays linesW 1) 1) (getL linesW l)).length
            = (maxInterval linesW / (getL linesW l).interval) * 1) :=
  ⟨⟨by decide, by decide⟩, c5_target_counts linesW 1 10 xAllW (by decide) (by decide)⟩

/-- C1: the built model contains, for every (line, day, slot), the positive
implication to `(d + interval, (s+1) % daily_slots)` and negative
implications to every cell strictly in between (cells of index `i` with
`d*nS+s < i < (d+interval)*nS + (s+1)%nS`), each only when the target day is
inside the horizon; no implication of the model targets a day at or beyond
`num_days`; and consequently, under any satisfying assignment, consecutive
entries of each zone's decoded occurrence list advance by exactly its
interval in days and one rotated slot. -/
theorem c1_interval_spacing (lines : List Line) (nS sm : Nat)
    (x : Nat → Nat → Nat → Bool)
    (hnS : 0 < nS)
    (hpos : ∀ z ∈ lines, 0 < z.interval)
    (hnd : lines.Nodup)
    (hx : satAll x (hardConstraints lines nS sm) = true) :
    (∀ l d s, l < lines.length → d < numDays lines nS → s < nS →
      (d + (getL lines l).interval < numDays lines nS →
        Cstr.imp l d s (d + (getL lines l).interval) ((s + 1) % nS) true
          ∈ hardConstraints lines nS sm)
      ∧ (∀ i, d * nS + s < i →
          i < (d + (getL lines l).interval) * nS + (s + 1) % nS →
          i / nS < numDays lines nS →
          Cstr.imp l d s (i / nS) (i % nS) false ∈ hardConstraints lines nS sm))
    ∧ (∀ l d s td ts' b, Cstr.imp l d s td ts' b ∈ hardConstraints lines nS sm →
        td < numDays lines nS)
    ∧ (∀ l, l < lines.length →
        List.Chain'
          (fun p q => q.1 = p.1 + (getL lines l).interval ∧ q.2 = (p.2 + 1) % nS)
          (lpGet (buildLP lines x (numDays lines nS) nS) (getL lines l))) := by
  refine ⟨?_, ?_, ?_⟩
  · intro l d s hl hd hs
    constructor
    · intro hin
      exact hard_of_interval (intervalCons_mem hl hd hs (impsFor_pos_mem hnS hin))
    · intro i h1 h2 h3
      exact hard_of_interval (intervalCons_mem hl hd hs (impsFor_neg_mem hnS h1 h2 h3))
  · intro l d s td ts' b hc
    exact intervalCons_imp_day (hard_imp_from_interval hc)
  · intro l hl
    rw [lpGet_buildLP x (numDays lines nS) nS hnd hl]
    exact zoneOccs_chain hnS hx hl (hpos (getL lines l) (getL_mem hl))

/-- Witness for C1 at the concrete satisfiable input `linesW`, `xAllW`. -/
theorem c1_interval_spacing_witness :
    (0 < 1 ∧ (∀ z ∈ linesW, 0 < z.interval) ∧ linesW.Nodup
      ∧ satAll xAllW (hardConstraints linesW 1 10) = true)
    ∧ ((∀ l d s, l < linesW.length → d < numDays linesW 1 → s < 1 →
        (d + (getL linesW l).interval < numDays linesW 1 →
          Cstr.imp l d s (d + (getL linesW l).interval) ((s + 1) % 1) true
            ∈ hardConstraints linesW 1 10)
        ∧ (∀ i, d * 1 + s < i →
            i < (d + (getL linesW l).interval) * 1 + (s + 1) % 1 →
            i / 1 < numDays linesW 1 →
            Cstr.imp l d s (i / 1) (i % 1) false ∈ hardConstraints linesW 1 10))
      ∧ (∀ l d s td ts' b, Cstr.imp l d s td ts' b ∈ hardConstraints linesW 1 10 →
          td < numDays linesW 1)
      ∧ (∀ l, l < linesW.length →
          List.Chain'
            (fun p q => q.1 = p.1 + (getL linesW l).interval ∧ q.2 = (p.2 + 1) % 1)
            (lpGet (buildLP linesW xAllW (numDays linesW 1) 1) (getL linesW l)))) :=
  ⟨⟨by decide, by decide, by decide, by decide⟩,
    c1_interval_spacing linesW 1 10 xAllW (by decide) (by decide) (by decide) (by decide)⟩

/-- C6: on the spec's §8 scenario (`linesT`, two slots, 20-minute budget) the
cycle values come out as the spec expects (`max_interval = 1`,
`num_days = 2`, target 2 per zone), but the built model admits no satisfying
assignment at all: the group-balance constraints force each zone into all
four cells while its target constraint demands exactly two, so no decoded
output — in particular no co-occurring schedule — exists. -/
theorem c6_scenario_infeasible :
    (maxInterval linesT = 1 ∧ numDays linesT 2 = 2 ∧ lineTargets linesT 2 = [2, 2])
    ∧ (∀ x : Nat → Nat → Nat → Bool, satAll x (hardConstraints linesT 2 20) = false) := by
  refine ⟨by decide, ?_⟩
  intro x
  apply List.all_eq_false.mpr
  cases h00 : x 0 0 0 with
  | false =>
      exact ⟨Cstr.gt [⟨10, 0, 0, 0⟩] 0, by decide,
        by simp [evalC, evalSum, evalTerm, h00]⟩
  | true =>
      cases h01 : x 0 0 1 with
      | false =>
          exact ⟨Cstr.gt [⟨10, 0, 0, 1⟩] 0, by decide,
            by simp [evalC, evalSum, evalTerm, h01]⟩
      | true =>
          cases h10 : x 0 1 0 with
          | false =>
              exact ⟨Cstr.gt [⟨10, 0, 1, 0⟩] 0, by decide,
                by simp [evalC, evalSum, evalTerm, h10]⟩
          | true =>
              cases h11 : x 0 1 1 with
              | false =>
                  exact ⟨Cstr.gt [⟨10, 0, 1, 1⟩] 0, by decide,
                    by simp [evalC, evalSum, evalTerm, h11]⟩
              | true =>
                  refine ⟨Cstr.eq [⟨1, 0, 0, 0⟩, ⟨1, 0, 0, 1⟩, ⟨1, 0, 1, 0⟩, ⟨1, 0, 1, 1⟩] 2,
                    by decide, ?_⟩
                  simp [evalC, evalSum, evalTerm, h00, h01, h10, h11]

/-- C7: the code performs no input validation: for the empty zone list the
full model is still built (five constraints, among them the trivially false
`sum([]) > 0` group constraint), and no assignment satisfies it, so the run
ends in the solver's infeasible branch (returning `None`) rather than in a
configuration error raised before model construction. -/
theorem c7_no_validation :
    (hardConstraints ([] : List Line) 1 10).length = 5
    ∧ Cstr.gt [] 0 ∈ hardConstraints ([] : List Line) 1 10
    ∧ (∀ x : Nat → Nat → Nat → Bool,
        satAll x (hardConstraints ([] : List Line) 1 10) = false) := by
  refine ⟨by decide, by decide, ?_⟩
  intro x
  apply List.all_eq_false.mpr
  exact ⟨Cstr.gt [] 0, by decide, by simp [evalC, evalSum]⟩

/-- C8: the decode step is driven purely by the solver status: any status
other than OPTIMAL or FEASIBLE yields the empty result `none`, and a
feasible status always yields both complete views — the day-major view has
exactly `num_days` days of exactly `daily_slots` slots each, never a partial
structure. -/
theorem c8_solve_outcome (status : CpStatus) (lines : List Line)
    (x : Nat → Nat → Nat → Bool) (nD nS : Nat) :
    (solveResult status lines x nD nS).elim
      (status ≠ CpStatus.optimal ∧ status ≠ CpStatus.feasible)
      (fun r => (status = CpStatus.optimal ∨ status = CpStatus.feasible)
        ∧ r.1 = daysPlan lines x nD nS
        ∧ r.2 = buildLP lines x nD nS
        ∧ r.1.length = nD
        ∧ (∀ day ∈ r.1, day.length = nS)) := by
  rw [solveResult]
  by_cases h : status = CpStatus.optimal ∨ status = CpStatus.feasible
  · rw [if_pos h]
    refine ⟨h, rfl, rfl, by simp [daysPlan], ?_⟩
    intro day hday
    simp only [daysPlan, List.mem_map] at hday
    obtain ⟨d, -, rfl⟩ := hday
    simp
  · rw [if_neg h]
    exact not_or.mp h

/-- The everywhere-true assignment keyed by the zone record itself. -/
def aAll : Line → Nat → Nat → Bool := fun _ _ _ => true

/-- For a zone-keyed assignment, a zone's entry in the decoded zone-major
view depends only on the zone and the assignment, not on its position in the
declaration list. -/
lemma lpGet_buildLP_xOf {lines : List Line} (A : Line → Nat → Nat → Bool)
    (nD nS : Nat) (hnd : lines.Nodup) {z : Line} (hz : z ∈ lines) :
    lpGet (buildLP lines (xOf lines A) nD nS) z = zoneOccsA A z nD nS := by
  obtain ⟨n, hn⟩ := List.mem_iff_get.mp hz
  have hlen : n.val < lines.length := n.isLt
  have hgetl : getL lines n.val = z := by
    rw [getL, List.getD_eq_getElem lines _ hlen]
    rw [show lines[n.val] = lines.get n from (List.get_eq_getElem lines n).symm]
    exact hn
  rw [← hgetl, lpGet_buildLP (xOf lines A) nD nS hnd hlen, zoneOccs_xOf]

/-- C9 counterexample: for the same zone-keyed assignment, the decoder run on
`linesW` and on its reversal produces differently ordered outputs — both the
zone order inside the (0,0) slot of the day-major view and the key order of
the zone-major view follow the declaration order. -/
theorem c9_counterexample :
    daysPlan linesW (xOf linesW aAll) 1 1
        ≠ daysPlan linesW.reverse (xOf linesW.reverse aAll) 1 1
    ∧ buildLP linesW (xOf linesW aAll) 1 1
        ≠ buildLP linesW.reverse (xOf linesW.reverse aAll) 1 1 := by
  refine ⟨?_, ?_⟩ <;> decide

/-- C9 (amended): for a fixed zone-keyed assignment, each decoded slot is the
declaration-order filter of the watered zones — so permuting the declaration
list permutes every per-cell zone list (set-equal contents, reordered) and
leaves each individual zone's zone-major occurrence list unchanged, while
the outputs as ordered structures follow declaration order. -/
theorem c9_decoder_order (lines1 lines2 : List Line) (A : Line → Nat → Nat → Bool)
    (nD nS : Nat) (hperm : lines1.Perm lines2) (hnd : lines1.Nodup) :
    (∀ d s, slotPlan lines1 (xOf lines1 A) d s = lines1.filter (fun z => A z d s))
    ∧ (∀ d s, (slotPlan lines1 (xOf lines1 A) d s).Perm
        (slotPlan lines2 (xOf lines2 A) d s))
    ∧ (∀ z ∈ lines1,
        lpGet (buildLP lines1 (xOf lines1 A) nD nS) z
            = lpGet (buildLP lines2 (xOf lines2 A) nD nS) z
        ∧ lpGet (buildLP lines1 (xOf lines1 A) nD nS) z = zoneOccsA A z nD nS) := by
  have hnd2 : lines2.Nodup := hperm.nodup_iff.mp hnd
  refine ⟨fun d s => slotPlan_xOf lines1 A d s, ?_, ?_⟩
  · intro d s
    rw [slotPlan_xOf, slotPlan_xOf]
    exact hperm.filter _
  · intro z hz1
    have hz2 : z ∈ lines2 := hperm.mem_iff.mp hz1
    have h1 := lpGet_buildLP_xOf A nD nS hnd hz1
    have h2 := lpGet_buildLP_xOf A nD nS hnd2 hz2
    exact ⟨h1.trans h2.symm, h1⟩

/-- Witness for the amended C9 at `linesW` and its reversal. -/
theorem c9_decoder_order_witness :
    (linesW.Perm linesW.reverse ∧ linesW.Nodup)
    ∧ ((∀ d s, slotPlan linesW (xOf linesW aAll) d s
          = linesW.filter (fun z => aAll z d s))
      ∧ (∀ d s, (slotPlan linesW (xOf linesW aAll) d s).Perm
          (slotPlan linesW.reverse (xOf linesW.reverse aAll) d s))
      ∧ (∀ z ∈ linesW,
          lpGet (buildLP linesW (xOf linesW aAll) 1 1) z
              = lpGet (buildLP linesW.reverse (xOf linesW.reverse aAll) 1 1) z
          ∧ lpGet (buildLP linesW (xOf linesW aAll) 1 1) z = zoneOccsA aAll z 1 1)) :=
  ⟨⟨by decide, by decide⟩,
    c9_decoder_order linesW linesW.reverse aAll 1 1 (by decide) (by decide)⟩

/-- C10: the hard constraints of the `sprinker.py` variant (capacity, target,
spacing) are a subset of those of the `constraints.py` variant, so every
assignment satisfying the latter satisfies the former; the inclusion is
strict: the diagonal schedule `xDiag` for the two-zone scenario satisfies the
`sprinker.py` model but violates the group-balance constraints that only
`constraints.py` emits. -/
theorem c10_variant_refinement (lines : List Line) (nS sm : Nat)
    (x : Nat → Nat → Nat → Bool)
    (hx : satAll x (hardConstraints lines nS sm) = true) :
    (∀ c ∈ hardSprinker lines nS sm, c ∈ hardConstraints lines nS sm)
    ∧ satAll x (hardSprinker lines nS sm) = true
    ∧ satAll xDiag (hardSprinker linesT 2 20) = true
    ∧ satAll xDiag (hardConstraints linesT 2 20) = false := by
  have hsub : ∀ c ∈ hardSprinker lines nS sm, c ∈ hardConstraints lines nS sm := by
    intro c hc
    simp only [hardSprinker, List.mem_append] at hc
    rcases hc with (hc | hc) | hc
    · exact hard_of_cap hc
    · exact hard_of_target hc
    · exact hard_of_interval hc
  refine ⟨hsub, ?_, by decide, by decide⟩
  apply List.all_eq_true.mpr
  intro c hc
  exact sat_mem hx (hsub c hc)

/-- Witness for C10 at the concrete satisfiable input `linesW`, `xAllW`. -/
theorem c10_variant_refinement_witness :
    satAll xAllW (hardConstraints linesW 1 10) = true
    ∧ ((∀ c ∈ hardSprinker linesW 1 10, c ∈ hardConstraints linesW 1 10)
      ∧ satAll xAllW (hardSprinker linesW 1 10) = true
      ∧ satAll xDiag (hardSprinker linesT 2 20) = true
      ∧ satAll xDiag (hardConstraints linesT 2 20) = false) :=
  ⟨by decide, c10_variant_refinement linesW 1 10 xAllW (by decide)⟩
